import Mathlib

/-!
Verification of the master scheduling loop of `src/cmd/MainSA.cpp`
(`main`, `executeSimulation`, `startReplicate`, `popNextFinishedReplicate`).

The scheduling loop is embedded shallowly, one Lean step per iteration of
the C++ `while (!globalAbort)` loop.  The environment's contributions to an
iteration (the value of the `globalAbort` flag at the top of the loop, the
set of running replicates whose `hasReplicateFinished()` poll returns true,
and each replicate's exit code) are supplied as a `StepInput`.  The
`std::map<int,int>` status table is an association list with the
`operator[]` default of 0 for absent keys.  `noopLoopCycles` is an
`unsigned long long`, so it increments modulo 2^64.  The `nanosleep` call
has no state effect and its failure path is not modelled.
-/

namespace MainSA

/-- The status table `std::map<int,int> simulationStatusTable`. -/
abbrev StatusTable := List (Int × Int)

/-- Read a status table entry; `operator[]` yields 0 for an absent key. -/
def getStatus (t : StatusTable) (id : Int) : Int :=
  match t with
  | [] => 0
  | (k, v) :: rest => if k = id then v else getStatus rest id

/-- Write a status table entry (`simulationStatusTable[id] = v`). -/
def setStatus (t : StatusTable) (id v : Int) : StatusTable :=
  match t with
  | [] => [(id, v)]
  | (k, w) :: rest => if k = id then (id, v) :: rest else (k, w) :: setStatus rest id v

/-- The scheduler state mutated by one iteration of the `while (!globalAbort)`
loop: the status table, `assignedSimulations`, `noopLoopCycles`, the
`runningReplicates` list (each runner by its replicate id, in `push_back`
order), plus two observation logs: the ids passed to `startReplicate` in
order, and the (replicate, exit code) pairs reported by the completion
message of each reap. -/
structure SchedState where
  status : StatusTable
  assigned : Int
  noop : Nat
  running : List Int
  started : List Int
  finishedLog : List (Int × Int)
deriving Repr, DecidableEq

/-- The environment's contribution to one loop iteration: the `globalAbort`
flag as read by the loop condition, the set of replicate ids whose runner's
`hasReplicateFinished()` currently returns true, and the exit code each
runner would report (`getReplicateExitCode`). -/
structure StepInput where
  abort : Bool
  finished : List Int
  exitCodes : Int → Int

/-- `popNextFinishedReplicate`: scan `runningReplicates` in list order and
remove and return the first runner whose poll reports finished. -/
def popNextFinished (running : List Int) (fin : List Int) : Option (Int × List Int) :=
  match running with
  | [] => none
  | r :: rest =>
    if r ∈ fin then some (r, rest)
    else
      match popNextFinished rest fin with
      | none => none
      | some (x, rest2) => some (x, r :: rest2)

/-- The body of the reap `while` loop for one finished runner `r`:
`assignedSimulations--`, status to 2 (Finished), reset `noopLoopCycles`,
drop the runner from the running list, log the completion message. -/
def reapOne (s : SchedState) (r : Int) (rest : List Int) (ec : Int → Int) : SchedState :=
  { s with
    running := rest
    assigned := s.assigned - 1
    status := setStatus s.status r 2
    noop := 0
    finishedLog := s.finishedLog ++ [(r, ec r)] }

/-- The reap `while` loop: pop finished runners until none is found.  Each
pop removes one element of the running list, so `running.length` is enough
fuel to reach the fixpoint. -/
def reapLoop (fuel : Nat) (inp : StepInput) (s : SchedState) : SchedState :=
  match fuel with
  | 0 => s
  | fuel + 1 =>
    match popNextFinished s.running inp.finished with
    | none => s
    | some (r, rest) => reapLoop fuel inp (reapOne s r rest inp.exitCodes)

/-- The replicate-selection scan (lines 346–357): walk the `replicates`
vector in order; break at the first entry with status 0 (Pending), and
accumulate `allFinished` as "every visited entry has status 2".  Returns
(`replicate`, `allFinished`); `replicate` stays -1 when no Pending entry is
reached. -/
def findReplicate (status : StatusTable) (reps : List Int) : Int × Bool :=
  match reps with
  | [] => (-1, true)
  | id :: rest =>
    if getStatus status id = 0 then (id, false)
    else
      let p := findReplicate status rest
      (p.1, decide (getStatus status id = 2) && p.2)

/-- `startReplicate` as seen from the scheduler state: the runner is pushed
onto the back of `runningReplicates`, `assignedSimulations++`, status to 1
(Running), and the start is logged. -/
def startReplicateState (s : SchedState) (r : Int) : SchedState :=
  { s with
    running := s.running ++ [r]
    assigned := s.assigned + 1
    status := setStatus s.status r 1
    started := s.started ++ [r] }

/-- The result of one iteration of the scheduling loop: continue looping,
exit because `globalAbort` was set (the loop condition), or exit through the
`if (allFinished) break`. -/
inductive StepResult where
  | cont (s : SchedState)
  | exitAbort (s : SchedState)
  | exitAllFinished (s : SchedState)
deriving Repr, DecidableEq

/-- The scheduler state carried by a step result. -/
def StepResult.state : StepResult → SchedState
  | .cont s => s
  | .exitAbort s => s
  | .exitAllFinished s => s

/-- The selection part of an iteration (the `if (noopLoopCycles > 1000)`
block): when more than 1000 idle cycles have elapsed, run the selection
scan and either exit on `allFinished`, start the chosen Pending replicate
when `replicate >= 0 && assignedSimulations < maxSimulations`, or fall
through to the sleep (which does not change the scheduler state). -/
def selectPhase (maxSim : Int) (reps : List Int) (s2 : SchedState) : StepResult :=
  if s2.noop > 1000 then
    let p := findReplicate s2.status reps
    if p.2 then .exitAllFinished s2
    else if p.1 ≥ 0 ∧ s2.assigned < maxSim then .cont (startReplicateState s2 p.1)
    else .cont s2
  else .cont s2

/-- The body of one loop iteration once the loop condition has passed:
increment `noopLoopCycles` (a 64-bit unsigned counter), reap every finished
runner, then run the selection part. -/
def loopBody (maxSim : Int) (reps : List Int) (inp : StepInput) (s : SchedState) :
    StepResult :=
  let s1 : SchedState := { s with noop := (s.noop + 1) % 2 ^ 64 }
  selectPhase maxSim reps (reapLoop s1.running.length inp s1)

/-- One iteration of the `while (!globalAbort)` loop of `executeSimulation`:
check the loop condition, then run the body. -/
def stepLoop (maxSim : Int) (reps : List Int) (inp : StepInput) (s : SchedState) :
    StepResult :=
  if inp.abort then .exitAbort s
  else loopBody maxSim reps inp s

/-- Why the driver stopped consuming inputs: the loop exited on abort, the
loop exited on `allFinished`, or the supplied input trace ran out with the
loop still going. -/
inductive LoopOutcome where
  | aborted
  | allFinished
  | ranOut
deriving Repr, DecidableEq

/-- Drive the scheduling loop over a finite trace of environment inputs. -/
def runLoop (maxSim : Int) (reps : List Int) :
    List StepInput → SchedState → LoopOutcome × SchedState
  | [], s => (.ranOut, s)
  | i :: rest, s =>
    match stepLoop maxSim reps i s with
    | .cont s' => runLoop maxSim reps rest s'
    | .exitAbort s' => (.aborted, s')
    | .exitAllFinished s' => (.allFinished, s')

/-- The status-table initialisation loop: `simulationStatusTable[*it] = 0`
for every id of the `replicates` vector, in order. -/
def initStatus (reps : List Int) : StatusTable :=
  reps.foldl (fun t id => setStatus t id 0) []

/-- The scheduler state as it stands when the scheduling loop is entered:
all statuses 0, `assignedSimulations = 0`, `noopLoopCycles = 0`, no running
replicates, nothing started or reaped yet. -/
def initState (reps : List Int) : SchedState :=
  { status := initStatus reps
    assigned := 0
    noop := 0
    running := []
    started := []
    finishedLog := [] }

/-- `executeSimulation`, from the `getMaxSimultaneousReplicates` check to
the end of the scheduling loop: when `maxSimulations == 0` the guard throws
(`Invalid configuration, no replicates can be processed.`) before the status
table is even used to start anything; otherwise the loop runs over the
supplied input trace. -/
def executeSimulation (maxSim : Int) (reps : List Int) (inputs : List StepInput) :
    Except String (LoopOutcome × SchedState) :=
  if maxSim = 0 then .error "Invalid configuration, no replicates can be processed."
  else .ok (runLoop maxSim reps inputs (initState reps))

/-- The replicate ids `executeSimulation` handed to `startReplicate`, in
order; an exception escaping means none were started after the throw. -/
def startedReplicates (r : Except String (LoopOutcome × SchedState)) : List Int :=
  match r with
  | .error _ => []
  | .ok (_, s) => s.started

/-- The exit code of `main`: `return 0` when the selected function returns
normally, `return -1` after any of the `catch` blocks. -/
def mainExitCode {α : Type} (r : Except String α) : Int :=
  match r with
  | .ok _ => 0
  | .error _ => -1

/-- The shutdown actions after the scheduling loop, in program order
(lines 411–430): `stopCheckpointing`, then `abortWorkers` when
`globalAbort` is set and `stopWorkers` otherwise, then the simulation file
is closed. -/
inductive ShutdownAction where
  | stopCheckpointing
  | abortWorkers
  | stopWorkers
  | closeFile
deriving Repr, DecidableEq

/-- The shutdown sequence of `executeSimulation` as a function of the
`globalAbort` flag. -/
def shutdownActions (abort : Bool) : List ShutdownAction :=
  [.stopCheckpointing] ++ (if abort then [.abortWorkers] else [.stopWorkers]) ++
    [.closeFile]

/-! ### Simulation parameters and command-line overrides (lines 249–266)

`std::map<std::string,string>` is an association list of byte strings,
modelled as `List Char`; lookup order in an assoc list does not change the
observable map.  A command-line token is split at the first `'='`
(`it->find("=")`, `substr(0, eqpos)`, `substr(eqpos+1)`); a token with no
`'='` is logged as a warning and skipped. -/

/-- A C++ `std::string`, as its character sequence. -/
abbrev Str := List Char

/-- The parameter map `std::map<std::string,string>`. -/
abbrev ParamMap := List (Str × Str)

/-- Map lookup. -/
def getParam (m : ParamMap) (k : Str) : Option Str :=
  match m with
  | [] => none
  | (k0, v0) :: rest => if k0 = k then some v0 else getParam rest k

/-- Map write (`simulationParameters[k] = v`): replace the value of an
existing key, insert the key otherwise. -/
def setParam (m : ParamMap) (k v : Str) : ParamMap :=
  match m with
  | [] => [(k, v)]
  | (k0, v0) :: rest =>
    if k0 = k then (k, v) :: rest else (k0, v0) :: setParam rest k v

/-- Split a token at its first `'='`: `none` when `find("=") == npos`,
otherwise `(substr(0, eqpos), substr(eqpos+1))`. -/
def splitAtEq (t : Str) : Option (Str × Str) :=
  match t with
  | [] => none
  | c :: rest =>
    if c = '=' then some ([], rest)
    else
      match splitAtEq rest with
      | none => none
      | some (k, v) => some (c :: k, v)

/-- The body of the override-injection loop for one token: a malformed
token (no `'='`) only appends a warning; a well-formed one writes
`simulationParameters[k] = v`.  The pair carries (map, warnings so far). -/
def applyOverride (acc : ParamMap × List Str) (t : Str) : ParamMap × List Str :=
  match splitAtEq t with
  | none => (acc.1, acc.2 ++ [t])
  | some (k, v) => (setParam acc.1 k v, acc.2)

/-- The override-injection loop over `cmdline_parameters` in argument
order, starting from the file-loaded map. -/
def applyOverrides (m : ParamMap) (ts : List Str) : ParamMap × List Str :=
  ts.foldl applyOverride (m, [])

/-- Modelled from the spec: the value the spec assigns to a key after the
overrides — "command-line key=value pairs applied in argument order (later
duplicates win)", so a later well-formed override for the key takes
precedence, and a key with no well-formed override keeps its file-sourced
value (`none` here marks "no override for this key"). -/
def lastOverride (ts : List Str) (k : Str) : Option Str :=
  match ts with
  | [] => none
  | t :: rest =>
    match lastOverride rest k with
    | some v => some v
    | none =>
      match splitAtEq t with
      | none => none
      | some (k0, v) => if k0 = k then some v else none

/-! ### Status-table lemmas -/

theorem getStatus_setStatus (t : StatusTable) (id v id' : Int) :
    getStatus (setStatus t id v) id' = if id = id' then v else getStatus t id' := by
  induction t with
  | nil =>
    simp only [setStatus, getStatus]
  | cons hd rest ih =>
    obtain ⟨k, w⟩ := hd
    by_cases hk : k = id
    · subst hk
      by_cases h' : k = id'
      · simp [setStatus, getStatus, h']
      · simp [setStatus, getStatus, h']
    · by_cases h' : k = id'
      · subst h'
        have hne : ¬ id = k := fun h => hk h.symm
        simp [setStatus, getStatus, hk, hne, ih]
      · simp [setStatus, getStatus, hk, h', ih]

theorem getStatus_initStatus_aux (reps : List Int) (t : StatusTable)
    (h : ∀ id, getStatus t id = 0) :
    ∀ id, getStatus (reps.foldl (fun t id => setStatus t id 0) t) id = 0 := by
  induction reps generalizing t with
  | nil => exact h
  | cons r rest ih =>
    intro id
    simp only [List.foldl_cons]
    refine ih (setStatus t r 0) ?_ id
    intro id'
    rw [getStatus_setStatus]
    split <;> simp [h]

theorem getStatus_initStatus (reps : List Int) (id : Int) :
    getStatus (initStatus reps) id = 0 :=
  getStatus_initStatus_aux reps [] (fun _ => rfl) id

/-! ### popNextFinishedReplicate lemmas -/

/-- A successful pop removes exactly one occurrence: the input running list
is a permutation of the popped id consed onto the remainder. -/
theorem popNextFinished_perm {running fin rest : List Int} {r : Int}
    (h : popNextFinished running fin = some (r, rest)) :
    running.Perm (r :: rest) := by
  induction running generalizing rest with
  | nil => simp [popNextFinished] at h
  | cons a tl ih =>
    by_cases ha : a ∈ fin
    · simp only [popNextFinished, if_pos ha] at h
      obtain ⟨h1, h2⟩ := Prod.mk.injEq .. ▸ (Option.some.injEq .. ▸ h)
      subst h1; subst h2
      exact List.Perm.refl _
    · simp only [popNextFinished, if_neg ha] at h
      cases hp : popNextFinished tl fin with
      | none => rw [hp] at h; simp at h
      | some p =>
        obtain ⟨x, rest2⟩ := p
        rw [hp] at h
        simp only [Option.some.injEq, Prod.mk.injEq] at h
        obtain ⟨hx, hr⟩ := h
        subst hx
        subst hr
        exact ((ih hp).cons a).trans (List.Perm.swap x a rest2)

/-- The pop comes back empty exactly when no running replicate polls
finished. -/
theorem popNextFinished_none (running fin : List Int) :
    popNextFinished running fin = none ↔ ∀ r ∈ running, r ∉ fin := by
  induction running with
  | nil => simp [popNextFinished]
  | cons a tl ih =>
    by_cases ha : a ∈ fin
    · simp [popNextFinished, ha]
    · simp only [popNextFinished, if_neg ha]
      cases hp : popNextFinished tl fin with
      | none =>
        simp only [List.mem_cons]
        constructor
        · intro _ r hr
          rcases hr with rfl | hr
          · exact ha
          · exact (ih.mp hp) r hr
        · intro _
          trivial
      | some p =>
        obtain ⟨x, rest2⟩ := p
        simp only [List.mem_cons]
        constructor
        · intro h
          simp at h
        · intro h
          have hnone : popNextFinished tl fin = none :=
            ih.mpr (fun r hr => h r (Or.inr hr))
          rw [hnone] at hp
          simp at hp

/-- The popped id was among the running replicates and polls finished. -/
theorem popNextFinished_mem {running fin rest : List Int} {r : Int}
    (h : popNextFinished running fin = some (r, rest)) :
    r ∈ running ∧ r ∈ fin := by
  induction running generalizing rest with
  | nil => simp [popNextFinished] at h
  | cons a tl ih =>
    by_cases ha : a ∈ fin
    · simp only [popNextFinished, if_pos ha, Option.some.injEq, Prod.mk.injEq] at h
      obtain ⟨h1, _⟩ := h
      subst h1
      exact ⟨List.mem_cons_self _ _, ha⟩
    · simp only [popNextFinished, if_neg ha] at h
      cases hp : popNextFinished tl fin with
      | none => rw [hp] at h; simp at h
      | some p =>
        obtain ⟨x, rest2⟩ := p
        rw [hp] at h
        simp only [Option.some.injEq, Prod.mk.injEq] at h
        obtain ⟨hx, _⟩ := h
        subst hx
        obtain ⟨hin, hfin⟩ := ih hp
        exact ⟨List.mem_cons_of_mem _ hin, hfin⟩

/-! ### The selection scan in closed form -/

/-- The selection scan computes, in one pass, the first Pending id of the
replicate list (−1 when none is reached) and whether every entry is
Finished. -/
theorem findReplicate_spec (status : StatusTable) (reps : List Int) :
    findReplicate status reps =
      (((reps.find? fun id => getStatus status id == 0).getD (-1)),
        reps.all fun id => getStatus status id == 2) := by
  induction reps with
  | nil => simp [findReplicate]
  | cons id rest ih =>
    by_cases h0 : getStatus status id = 0
    · simp [findReplicate, h0, List.find?_cons, List.all_cons]
    · have hbeq : (getStatus status id == 0) = false := by
        simpa using h0
      simp only [findReplicate, if_neg h0, ih, List.find?_cons, hbeq, List.all_cons]
      by_cases h2 : getStatus status id = 2
      · simp [h2]
      · have : (getStatus status id == 2) = false := by simpa using h2
        simp [this, h2]

/-! ### Parameter-map lemmas -/

theorem getParam_setParam (m : ParamMap) (k v k' : Str) :
    getParam (setParam m k v) k' = if k = k' then some v else getParam m k' := by
  induction m with
  | nil =>
    simp only [setParam, getParam]
  | cons hd rest ih =>
    obtain ⟨k0, v0⟩ := hd
    by_cases hk : k0 = k
    · subst hk
      by_cases h' : k0 = k'
      · simp [setParam, getParam, h']
      · simp [setParam, getParam, h']
    · by_cases h' : k0 = k'
      · subst h'
        have hne : ¬ k = k0 := fun h => hk h.symm
        simp [setParam, getParam, hk, hne, ih]
      · simp [setParam, getParam, hk, h', ih]

/-- The map component of the override fold does not depend on the warnings
accumulated so far. -/
theorem applyOverrides_fst_warnings (ts : List Str) (m : ParamMap) (w w' : List Str) :
    (ts.foldl applyOverride (m, w)).1 = (ts.foldl applyOverride (m, w')).1 := by
  induction ts generalizing m w w' with
  | nil => rfl
  | cons t rest ih =>
    simp only [List.foldl_cons, applyOverride]
    cases splitAtEq t with
    | none => exact ih m (w ++ [t]) (w' ++ [t])
    | some p => exact ih (setParam m p.1 p.2) w w'

/-- The override fold, looked up at one key, against the spec's description:
the last well-formed override of the key wins, a key with no override keeps
its file-sourced value. -/
theorem getParam_applyOverrides_foldl (ts : List Str) (m : ParamMap) (w : List Str)
    (k : Str) :
    getParam (ts.foldl applyOverride (m, w)).1 k =
      match lastOverride ts k with
      | some v => some v
      | none => getParam m k := by
  induction ts generalizing m w with
  | nil => simp [lastOverride]
  | cons t rest ih =>
    simp only [List.foldl_cons, lastOverride]
    cases hsplit : splitAtEq t with
    | none =>
      simp only [applyOverride, hsplit]
      rw [ih m (w ++ [t])]
      cases lastOverride rest k <;> simp
    | some p =>
      obtain ⟨k0, v0⟩ := p
      simp only [applyOverride, hsplit]
      rw [ih (setParam m k0 v0) w]
      cases lastOverride rest k with
      | some v => simp
      | none =>
        simp only
        rw [getParam_setParam]
        by_cases hk : k0 = k
        · simp [hk]
        · simp [hk]

/-! ### The scheduling invariant -/

/-- The coupling invariant of the scheduling loop: `assignedSimulations`
counts the running replicates; it never exceeds `maxSimulations`; no
replicate has two runners; and a replicate's status is 1 exactly while a
runner for it is in the running list. -/
def Inv (maxSim : Int) (s : SchedState) : Prop :=
  s.assigned = s.running.length ∧
  s.assigned ≤ maxSim ∧
  s.running.Nodup ∧
  (∀ id, id ∈ s.running ↔ getStatus s.status id = 1)

/-- Status changes the reap loop may make: unchanged, or Running → Finished. -/
def ReapStep (a b : Int) : Prop := a = b ∨ (a = 1 ∧ b = 2)

/-- Status changes one loop iteration may make: unchanged,
Pending → Running, or Running → Finished. -/
def StatusStep (a b : Int) : Prop := a = b ∨ (a = 0 ∧ b = 1) ∨ (a = 1 ∧ b = 2)

theorem ReapStep.trans {a b c : Int} (h1 : ReapStep a b) (h2 : ReapStep b c) :
    ReapStep a c := by
  rcases h1 with rfl | ⟨rfl, rfl⟩
  · exact h2
  · rcases h2 with rfl | ⟨h, _⟩
    · exact Or.inr ⟨rfl, rfl⟩
    · exact absurd h (by norm_num)

theorem ReapStep.toStatusStep {a b : Int} (h : ReapStep a b) : StatusStep a b := by
  rcases h with rfl | ⟨rfl, rfl⟩
  · exact Or.inl rfl
  · exact Or.inr (Or.inr ⟨rfl, rfl⟩)

/-- `reapOne` at a popped runner preserves the invariant and only moves the
popped replicate from Running to Finished. -/
theorem reapOne_inv {maxSim : Int} {s : SchedState} {r : Int} {rest : List Int}
    (ec : Int → Int) (hInv : Inv maxSim s) (hperm : s.running.Perm (r :: rest)) :
    Inv maxSim (reapOne s r rest ec) ∧
      ∀ id, ReapStep (getStatus s.status id) (getStatus (reapOne s r rest ec).status id) := by
  obtain ⟨hlen, hmax, hnd, hmem⟩ := hInv
  have hnd' : (r :: rest).Nodup := hperm.nodup_iff.mp hnd
  have hrnotin : r ∉ rest := (List.nodup_cons.mp hnd').1
  have hndrest : rest.Nodup := (List.nodup_cons.mp hnd').2
  have hrrun : r ∈ s.running := hperm.mem_iff.mpr (List.mem_cons_self r rest)
  have hr1 : getStatus s.status r = 1 := (hmem r).mp hrrun
  have hlength : s.running.length = rest.length + 1 := by
    simpa using hperm.length_eq
  refine ⟨⟨?_, ?_, hndrest, ?_⟩, ?_⟩
  · simp only [reapOne]
    omega
  · simp only [reapOne]
    omega
  · intro id
    simp only [reapOne, getStatus_setStatus]
    by_cases hid : r = id
    · subst hid
      simp [hrnotin]
    · have : id ∈ rest ↔ id ∈ s.running := by
        rw [hperm.mem_iff, List.mem_cons]
        have : ¬ id = r := fun h => hid h.symm
        simp [this]
      rw [if_neg hid, this, hmem id]
  · intro id
    simp only [reapOne, getStatus_setStatus]
    by_cases hid : r = id
    · subst hid
      simp only [if_pos rfl]
      exact Or.inr ⟨hr1, rfl⟩
    · simp only [if_neg hid]
      exact Or.inl rfl

/-- The reap loop preserves the invariant and only moves replicates from
Running to Finished. -/
theorem reapLoop_inv {maxSim : Int} (fuel : Nat) (inp : StepInput) (s : SchedState)
    (hInv : Inv maxSim s) :
    Inv maxSim (reapLoop fuel inp s) ∧
      ∀ id, ReapStep (getStatus s.status id) (getStatus (reapLoop fuel inp s).status id) := by
  induction fuel generalizing s with
  | zero => exact ⟨hInv, fun _ => Or.inl rfl⟩
  | succ fuel ih =>
    simp only [reapLoop]
    cases hp : popNextFinished s.running inp.finished with
    | none => exact ⟨hInv, fun _ => Or.inl rfl⟩
    | some p =>
      obtain ⟨r, rest⟩ := p
      have hperm := popNextFinished_perm hp
      obtain ⟨hInv1, hstep1⟩ := reapOne_inv inp.exitCodes hInv hperm
      obtain ⟨hInv2, hstep2⟩ := ih _ hInv1
      exact ⟨hInv2, fun id => (hstep1 id).trans (hstep2 id)⟩

/-- Any state the reap loop produces from a state with a cleared idle
counter still has a cleared idle counter. -/
theorem reapLoop_noop_zero (fuel : Nat) (inp : StepInput) (s : SchedState)
    (h : s.noop = 0) : (reapLoop fuel inp s).noop = 0 := by
  induction fuel generalizing s with
  | zero => exact h
  | succ fuel ih =>
    simp only [reapLoop]
    cases hp : popNextFinished s.running inp.finished with
    | none => exact h
    | some p => exact ih _ rfl

/-- When no runner polls finished, the reap loop is the identity. -/
theorem reapLoop_pop_none (fuel : Nat) (inp : StepInput) (s : SchedState)
    (h : popNextFinished s.running inp.finished = none) : reapLoop fuel inp s = s := by
  cases fuel with
  | zero => rfl
  | succ fuel => simp [reapLoop, h]

/-- When some runner polls finished, the reap loop (with enough fuel)
leaves the idle counter cleared. -/
theorem reapLoop_noop_of_pop {inp : StepInput} {s : SchedState} {p : Int × List Int}
    (fuel : Nat) (hfuel : 1 ≤ fuel)
    (h : popNextFinished s.running inp.finished = some p) :
    (reapLoop fuel inp s).noop = 0 := by
  cases fuel with
  | zero => omega
  | succ fuel =>
    simp only [reapLoop, h]
    exact reapLoop_noop_zero fuel inp _ rfl

/-- The selection part preserves the invariant and only starts a Pending
replicate. -/
theorem selectPhase_inv {maxSim : Int} (reps : List Int) {s2 : SchedState}
    (hInv : Inv maxSim s2) :
    Inv maxSim (selectPhase maxSim reps s2).state ∧
      ∀ id, (getStatus s2.status id = getStatus (selectPhase maxSim reps s2).state.status id) ∨
        (getStatus s2.status id = 0 ∧
          getStatus (selectPhase maxSim reps s2).state.status id = 1) := by
  obtain ⟨hlen, hmax, hnd, hmem⟩ := hInv
  rw [selectPhase]
  by_cases hnoop : s2.noop > 1000
  · rw [if_pos hnoop]
    set p := findReplicate s2.status reps with hp
    by_cases hfin : p.2
    · rw [if_pos hfin]
      exact ⟨⟨hlen, hmax, hnd, hmem⟩, fun _ => Or.inl rfl⟩
    · rw [if_neg hfin]
      by_cases hstart : p.1 ≥ 0 ∧ s2.assigned < maxSim
      · rw [if_pos hstart]
        have hpend : getStatus s2.status p.1 = 0 := by
          have hspec := findReplicate_spec s2.status reps
          rw [hp, hspec]
          cases hfind : reps.find? fun id => getStatus s2.status id == 0 with
          | none =>
            exfalso
            have : p.1 = -1 := by rw [hp, hspec, hfind]; rfl
            rw [this] at hstart
            omega
          | some r =>
            have := List.find?_some hfind
            simpa using this
        have hnotrun : p.1 ∉ s2.running := by
          intro hin
          rw [hmem p.1] at hin
          omega
        refine ⟨⟨?_, ?_, ?_, ?_⟩, ?_⟩
        · simp only [StepResult.state, startReplicateState, List.length_append,
            List.length_cons, List.length_nil]
          omega
        · simp only [StepResult.state, startReplicateState]
          omega
        · simp only [StepResult.state, startReplicateState]
          refine hnd.append (List.nodup_singleton p.1) ?_
          intro a ha hb
          rw [List.mem_singleton] at hb
          subst hb
          exact hnotrun ha
        · intro id
          simp only [StepResult.state, startReplicateState, List.mem_append,
            List.mem_singleton, getStatus_setStatus]
          by_cases hid : p.1 = id
          · subst hid
            simp [hnotrun]
          · have : ¬ id = p.1 := fun h => hid h.symm
            simp only [if_neg hid, this, or_false]
            exact hmem id
        · intro id
          simp only [StepResult.state, startReplicateState, getStatus_setStatus]
          by_cases hid : p.1 = id
          · subst hid
            rw [if_pos rfl]
            exact Or.inr ⟨hpend, rfl⟩
          · rw [if_neg hid]
            exact Or.inl rfl
      · rw [if_neg hstart]
        exact ⟨⟨hlen, hmax, hnd, hmem⟩, fun _ => Or.inl rfl⟩
  · rw [if_neg hnoop]
    exact ⟨⟨hlen, hmax, hnd, hmem⟩, fun _ => Or.inl rfl⟩

/-- One whole loop iteration preserves the invariant, and each replicate's
status either stays put, moves Pending → Running, or moves
Running → Finished. -/
theorem stepLoop_inv {maxSim : Int} (reps : List Int) (inp : StepInput) {s : SchedState}
    (hInv : Inv maxSim s) :
    Inv maxSim (stepLoop maxSim reps inp s).state ∧
      ∀ id, StatusStep (getStatus s.status id)
        (getStatus (stepLoop maxSim reps inp s).state.status id) := by
  rw [stepLoop]
  by_cases habort : inp.abort
  · rw [if_pos habort]
    exact ⟨hInv, fun _ => Or.inl rfl⟩
  · rw [if_neg habort, loopBody]
    set s1 : SchedState := { s with noop := (s.noop + 1) % 2 ^ 64 } with hs1
    have hInv1 : Inv maxSim s1 := hInv
    obtain ⟨hInv2, hreap⟩ := reapLoop_inv s1.running.length inp s1 hInv1
    obtain ⟨hInv3, hsel⟩ := selectPhase_inv reps hInv2
    refine ⟨hInv3, fun id => ?_⟩
    have h1 : ReapStep (getStatus s.status id)
        (getStatus (reapLoop s1.running.length inp s1).status id) := hreap id
    rcases hsel id with heq | ⟨h0, h1'⟩
    · rw [← heq]
      exact h1.toStatusStep
    · rcases h1 with hsame | ⟨ha, hb⟩
      · rw [hsame, h0] at *
        exact Or.inr (Or.inl ⟨h0 ▸ hsame, h1'⟩)
      · rw [hb] at h0
        exact absurd h0 (by norm_num)

/-- The states the scheduling loop can reach from a given state, one
`stepLoop` continuation at a time, under arbitrary environment inputs. -/
inductive Reachable (maxSim : Int) (reps : List Int) : SchedState → SchedState → Prop
  | refl (s : SchedState) : Reachable maxSim reps s s
  | step {s t u : SchedState} (i : StepInput) :
      Reachable maxSim reps s t → stepLoop maxSim reps i t = .cont u →
      Reachable maxSim reps s u

/-- The invariant holds in every reachable state. -/
theorem Reachable.inv {maxSim : Int} {reps : List Int} {s t : SchedState}
    (hInv : Inv maxSim s) (h : Reachable maxSim reps s t) : Inv maxSim t := by
  induction h with
  | refl => exact hInv
  | step i _ hstep ih =>
    have := (stepLoop_inv reps i ih).1
    rw [hstep] at this
    exact this

/-- The invariant holds at the initial state whenever the concurrency bound
is nonnegative. -/
theorem initState_inv {maxSim : Int} (reps : List Int) (h : 0 ≤ maxSim) :
    Inv maxSim (initState reps) := by
  refine ⟨rfl, h, List.nodup_nil, fun id => ?_⟩
  simp [initState, getStatus_initStatus]

/-! ### Idle-counter accounting -/

/-- The reap loop never increases the idle counter. -/
theorem reapLoop_noop_le (fuel : Nat) (inp : StepInput) (s : SchedState) :
    (reapLoop fuel inp s).noop ≤ s.noop := by
  cases fuel with
  | zero => exact le_refl _
  | succ fuel =>
    simp only [reapLoop]
    cases hp : popNextFinished s.running inp.finished with
    | none => exact le_refl _
    | some p =>
      obtain ⟨r, rest⟩ := p
      have h0 := reapLoop_noop_zero fuel inp (reapOne s r rest inp.exitCodes) rfl
      show (reapLoop fuel inp (reapOne s r rest inp.exitCodes)).noop ≤ s.noop
      rw [h0]
      exact Nat.zero_le _

/-- A continuing selection part does not change the idle counter. -/
theorem selectPhase_cont_noop {maxSim : Int} {reps : List Int} {s2 s' : SchedState}
    (h : selectPhase maxSim reps s2 = .cont s') : s'.noop = s2.noop := by
  rw [selectPhase] at h
  by_cases hnoop : s2.noop > 1000
  · rw [if_pos hnoop] at h
    by_cases hfin : (findReplicate s2.status reps).2
    · rw [if_pos hfin] at h
      simp at h
    · rw [if_neg hfin] at h
      by_cases hstart : (findReplicate s2.status reps).1 ≥ 0 ∧ s2.assigned < maxSim
      · rw [if_pos hstart] at h
        injection h with h
        rw [← h]
        rfl
      · rw [if_neg hstart] at h
        injection h with h
        rw [← h]
  · rw [if_neg hnoop] at h
    injection h with h
    rw [← h]

/-- A continuing iteration grows the idle counter by at most one. -/
theorem stepLoop_cont_noop {maxSim : Int} {reps : List Int} {inp : StepInput}
    {s s' : SchedState} (h : stepLoop maxSim reps inp s = .cont s') :
    s'.noop ≤ s.noop + 1 := by
  rw [stepLoop] at h
  by_cases habort : inp.abort
  · rw [if_pos habort] at h
    simp at h
  · rw [if_neg habort, loopBody] at h
    have h1 := selectPhase_cont_noop h
    have h2 := reapLoop_noop_le
      ({ s with noop := (s.noop + 1) % 2 ^ 64 } : SchedState).running.length inp
      { s with noop := (s.noop + 1) % 2 ^ 64 }
    have h3 : (s.noop + 1) % 2 ^ 64 ≤ s.noop + 1 := Nat.mod_le _ _
    have h4 : ({ s with noop := (s.noop + 1) % 2 ^ 64 } : SchedState).noop =
        (s.noop + 1) % 2 ^ 64 := rfl
    omega

/-- An iteration that exits through `allFinished` reaped nothing, left the
state exactly at the incremented idle counter, and entered with the idle
counter already at 1000 or more. -/
theorem stepLoop_exitAllFinished {maxSim : Int} {reps : List Int} {inp : StepInput}
    {s s' : SchedState} (h : stepLoop maxSim reps inp s = .exitAllFinished s') :
    inp.abort = false ∧
    popNextFinished s.running inp.finished = none ∧
    s' = { s with noop := (s.noop + 1) % 2 ^ 64 } ∧
    1000 ≤ s.noop := by
  rw [stepLoop] at h
  by_cases habort : inp.abort
  · rw [if_pos habort] at h
    simp at h
  · have habort' : inp.abort = false := by simpa using habort
    rw [if_neg habort, loopBody] at h
    set s1 : SchedState := { s with noop := (s.noop + 1) % 2 ^ 64 } with hs1
    cases hp : popNextFinished s.running inp.finished with
    | some p =>
      exfalso
      have hne : s.running ≠ [] := by
        intro hnil
        rw [hnil] at hp
        simp [popNextFinished] at hp
      have hlen : 1 ≤ s1.running.length := by
        show 1 ≤ s.running.length
        cases hr : s.running with
        | nil => exact absurd hr hne
        | cons a tl => simp
      have hp1 : popNextFinished s1.running inp.finished = some p := hp
      have hzero : (reapLoop s1.running.length inp s1).noop = 0 :=
        reapLoop_noop_of_pop s1.running.length hlen hp1
      rw [selectPhase] at h
      rw [if_neg (by omega : ¬ (reapLoop s1.running.length inp s1).noop > 1000)] at h
      simp at h
    | none =>
      have hp1 : popNextFinished s1.running inp.finished = none := hp
      have hid : reapLoop s1.running.length inp s1 = s1 :=
        reapLoop_pop_none _ inp s1 hp1
      rw [hid, selectPhase] at h
      by_cases hnoop : s1.noop > 1000
      · rw [if_pos hnoop] at h
        by_cases hfin : (findReplicate s1.status reps).2
        · rw [if_pos hfin] at h
          injection h with h
          have hmod : (s.noop + 1) % 2 ^ 64 ≤ s.noop + 1 := Nat.mod_le _ _
          have hn : s1.noop = (s.noop + 1) % 2 ^ 64 := rfl
          exact ⟨habort', rfl, h.symm, by omega⟩
        · rw [if_neg hfin] at h
          by_cases hstart : (findReplicate s1.status reps).1 ≥ 0 ∧ s1.assigned < maxSim
          · rw [if_pos hstart] at h
            simp at h
          · rw [if_neg hstart] at h
            simp at h
      · rw [if_neg hnoop] at h
        simp at h

/-- A continuing iteration that reaped at least one runner leaves the idle
counter cleared. -/
theorem stepLoop_cont_reap_noop {maxSim : Int} {reps : List Int} {inp : StepInput}
    {s s' : SchedState} {p : Int × List Int}
    (h : stepLoop maxSim reps inp s = .cont s')
    (hp : popNextFinished s.running inp.finished = some p) : s'.noop = 0 := by
  rw [stepLoop] at h
  by_cases habort : inp.abort
  · rw [if_pos habort] at h
    simp at h
  · rw [if_neg habort, loopBody] at h
    set s1 : SchedState := { s with noop := (s.noop + 1) % 2 ^ 64 } with hs1
    have hrun : s1.running = s.running := rfl
    have hne : s.running ≠ [] := by
      intro hnil
      rw [hnil] at hp
      simp [popNextFinished] at hp
    have hlen : 1 ≤ s1.running.length := by
      rw [hrun]
      cases hr : s.running with
      | nil => exact absurd hr hne
      | cons a tl => simp
    have hzero : (reapLoop s1.running.length inp s1).noop = 0 :=
      reapLoop_noop_of_pop s1.running.length hlen (hrun ▸ hp)
    have := selectPhase_cont_noop h
    omega

/-- A run that exits through `allFinished` consumed more than
`1000 - noop` inputs: completion is detected only after the idle counter
climbs past 1000. -/
theorem runLoop_allFinished_length {maxSim : Int} {reps : List Int}
    {inputs : List StepInput} {s : SchedState}
    (h : (runLoop maxSim reps inputs s).1 = .allFinished) :
    1000 < inputs.length + s.noop := by
  induction inputs generalizing s with
  | nil => simp [runLoop] at h
  | cons i rest ih =>
    rw [runLoop] at h
    cases hstep : stepLoop maxSim reps i s with
    | cont s' =>
      rw [hstep] at h
      have h1 := ih h
      have h2 := stepLoop_cont_noop hstep
      simp only [List.length_cons]
      omega
    | exitAbort s' =>
      rw [hstep] at h
      simp at h
    | exitAllFinished s' =>
      have h4 := (stepLoop_exitAllFinished hstep).2.2.2
      simp only [List.length_cons]
      omega

/-! ### Exit codes are recorded, never escalated

Two runs whose environments agree on everything except the per-replicate
exit codes produce the same control flow and the same scheduler state up to
the completion log. -/

/-- The scheduler state with the completion log blanked: everything the
loop's control flow can depend on. -/
def stripState (s : SchedState) : SchedState := { s with finishedLog := [] }

/-- Step results up to the completion log. -/
def stripResult (r : StepResult) : StepResult :=
  match r with
  | .cont s => .cont (stripState s)
  | .exitAbort s => .exitAbort (stripState s)
  | .exitAllFinished s => .exitAllFinished (stripState s)

/-- An `executeSimulation` result up to the completion log. -/
def stripRun (r : Except String (LoopOutcome × SchedState)) :
    Except String (LoopOutcome × SchedState) :=
  r.map fun p => (p.1, stripState p.2)

/-- Replace the exit codes every runner would report, leaving the abort
flag and the finished polls of each iteration untouched. -/
def setExitCodes (inputs : List StepInput) (f : Int → Int) : List StepInput :=
  inputs.map fun i => { i with exitCodes := f }

theorem stripState_reapOne (s t : SchedState) (r : Int) (rest : List Int)
    (f g : Int → Int) (h : stripState s = stripState t) :
    stripState (reapOne s r rest f) = stripState (reapOne t r rest g) := by
  cases s
  cases t
  simp only [stripState, SchedState.mk.injEq, and_true] at h
  obtain ⟨h1, h2, h3, h4, h5⟩ := h
  simp [reapOne, stripState, h1, h2, h3, h4, h5]

theorem stripState_fields {s t : SchedState} (h : stripState s = stripState t) :
    s.status = t.status ∧ s.assigned = t.assigned ∧ s.noop = t.noop ∧
      s.running = t.running ∧ s.started = t.started := by
  cases s
  cases t
  simp only [stripState, SchedState.mk.injEq, and_true] at h
  exact h

theorem stripState_reapLoop (fuel : Nat) (ab ab' : Bool) (fin : List Int)
    (f g : Int → Int) (s t : SchedState) (h : stripState s = stripState t) :
    stripState (reapLoop fuel ⟨ab, fin, f⟩ s) = stripState (reapLoop fuel ⟨ab', fin, g⟩ t) := by
  induction fuel generalizing s t with
  | zero => exact h
  | succ fuel ih =>
    obtain ⟨h1, h2, h3, h4, h5⟩ := stripState_fields h
    simp only [reapLoop, h4]
    cases hp : popNextFinished t.running fin with
    | none => exact h
    | some p =>
      obtain ⟨r, rest⟩ := p
      exact ih _ _ (stripState_reapOne s t r rest f g h)

theorem stripState_startReplicateState (s t : SchedState) (r : Int)
    (h : stripState s = stripState t) :
    stripState (startReplicateState s r) = stripState (startReplicateState t r) := by
  cases s
  cases t
  simp only [stripState, SchedState.mk.injEq, and_true] at h
  obtain ⟨h1, h2, h3, h4, h5⟩ := h
  simp [startReplicateState, stripState, h1, h2, h3, h4, h5]

theorem stripResult_selectPhase (maxSim : Int) (reps : List Int) (s t : SchedState)
    (h : stripState s = stripState t) :
    stripResult (selectPhase maxSim reps s) = stripResult (selectPhase maxSim reps t) := by
  obtain ⟨h1, h2, h3, h4, h5⟩ := stripState_fields h
  rw [selectPhase, selectPhase, h1, h2, h3]
  by_cases hnoop : t.noop > 1000
  · rw [if_pos hnoop, if_pos hnoop]
    by_cases hfin : (findReplicate t.status reps).2
    · rw [if_pos hfin, if_pos hfin]
      simp only [stripResult, h]
    · rw [if_neg hfin, if_neg hfin]
      by_cases hstart : (findReplicate t.status reps).1 ≥ 0 ∧ t.assigned < maxSim
      · rw [if_pos hstart, if_pos hstart]
        simp only [stripResult]
        rw [stripState_startReplicateState s t _ h]
      · rw [if_neg hstart, if_neg hstart]
        simp only [stripResult, h]
  · rw [if_neg hnoop, if_neg hnoop]
    simp only [stripResult, h]

theorem stripResult_stepLoop (maxSim : Int) (reps : List Int) (ab : Bool)
    (fin : List Int) (f g : Int → Int) (s t : SchedState)
    (h : stripState s = stripState t) :
    stripResult (stepLoop maxSim reps ⟨ab, fin, f⟩ s) =
      stripResult (stepLoop maxSim reps ⟨ab, fin, g⟩ t) := by
  rw [stepLoop, stepLoop]
  cases ab with
  | true =>
    simp only [if_pos]
    simp [stripResult, h]
  | false =>
    simp only [Bool.false_eq_true, if_false, loopBody]
    obtain ⟨h1, h2, h3, h4, h5⟩ := stripState_fields h
    have hbase : stripState ({ s with noop := (s.noop + 1) % 2 ^ 64 } : SchedState) =
        stripState ({ t with noop := (t.noop + 1) % 2 ^ 64 } : SchedState) := by
      cases s
      cases t
      simp only [stripState, SchedState.mk.injEq, and_true] at h ⊢
      obtain ⟨g1, g2, g3, g4, g5⟩ := h
      exact ⟨g1, g2, by rw [g3], g4, g5⟩
    have hlen : ({ s with noop := (s.noop + 1) % 2 ^ 64 } : SchedState).running.length =
        ({ t with noop := (t.noop + 1) % 2 ^ 64 } : SchedState).running.length := by
      show s.running.length = t.running.length
      rw [h4]
    rw [hlen]
    exact stripResult_selectPhase maxSim reps _ _
      (stripState_reapLoop _ false false fin f g _ _ hbase)

theorem stripRun_runLoop (maxSim : Int) (reps : List Int) (inputs : List StepInput)
    (f g : Int → Int) (s t : SchedState) (h : stripState s = stripState t) :
    (runLoop maxSim reps (setExitCodes inputs f) s).1 =
        (runLoop maxSim reps (setExitCodes inputs g) t).1 ∧
      stripState (runLoop maxSim reps (setExitCodes inputs f) s).2 =
        stripState (runLoop maxSim reps (setExitCodes inputs g) t).2 := by
  induction inputs generalizing s t with
  | nil => exact ⟨rfl, h⟩
  | cons i rest ih =>
    simp only [setExitCodes, List.map_cons, runLoop]
    have hstep := stripResult_stepLoop maxSim reps i.abort i.finished f g s t h
    cases hf : stepLoop maxSim reps ⟨i.abort, i.finished, f⟩ s with
    | cont s' =>
      rw [hf] at hstep
      cases hg : stepLoop maxSim reps ⟨i.abort, i.finished, g⟩ t with
      | cont t' =>
        rw [hg] at hstep
        simp only [stripResult, StepResult.cont.injEq] at hstep
        exact ih s' t' hstep
      | exitAbort t' => rw [hg] at hstep; simp [stripResult] at hstep
      | exitAllFinished t' => rw [hg] at hstep; simp [stripResult] at hstep
    | exitAbort s' =>
      rw [hf] at hstep
      cases hg : stepLoop maxSim reps ⟨i.abort, i.finished, g⟩ t with
      | cont t' => rw [hg] at hstep; simp [stripResult] at hstep
      | exitAbort t' =>
        rw [hg] at hstep
        simp only [stripResult, StepResult.exitAbort.injEq] at hstep
        exact ⟨rfl, hstep⟩
      | exitAllFinished t' => rw [hg] at hstep; simp [stripResult] at hstep
    | exitAllFinished s' =>
      rw [hf] at hstep
      cases hg : stepLoop maxSim reps ⟨i.abort, i.finished, g⟩ t with
      | cont t' => rw [hg] at hstep; simp [stripResult] at hstep
      | exitAbort t' => rw [hg] at hstep; simp [stripResult] at hstep
      | exitAllFinished t' =>
        rw [hg] at hstep
        simp only [stripResult, StepResult.exitAllFinished.injEq] at hstep
        exact ⟨rfl, hstep⟩

/-! ### The claims -/

/-- C1: at every point during the scheduling loop, the number of replicates
in the Running state (tracked as `assignedSimulations`) never exceeds
`maxSimulations`: in every reachable state the counter equals the number of
running replicates, stays at most `maxSimulations`, and any further
iteration (including the exiting ones) keeps the counter bounded. -/
theorem C1_running_bound (maxSim : Int) (reps : List Int) (s : SchedState)
    (hmax : 0 ≤ maxSim) (hreach : Reachable maxSim reps (initState reps) s) :
    s.assigned ≤ maxSim ∧ s.assigned = s.running.length ∧
      (∀ id, getStatus s.status id = 1 ↔ id ∈ s.running) ∧
      ∀ i, (stepLoop maxSim reps i s).state.assigned ≤ maxSim := by
  obtain ⟨h1, h2, h3, h4⟩ := hreach.inv (initState_inv reps hmax)
  refine ⟨h2, h1, fun id => (h4 id).symm, fun i => ?_⟩
  exact ((stepLoop_inv reps i ⟨h1, h2, h3, h4⟩).1).2.1

theorem C1_running_bound_witness :
    (initState [0]).assigned ≤ 1 ∧
      (initState [0]).assigned = (initState [0]).running.length ∧
      (∀ id, getStatus (initState [0]).status id = 1 ↔ id ∈ (initState [0]).running) ∧
      ∀ i, (stepLoop 1 [0] i (initState [0])).state.assigned ≤ 1 :=
  C1_running_bound 1 [0] (initState [0]) (by norm_num) (Reachable.refl _)

/-- C2: every status-table entry moves only forward through
Pending (0) → Running (1) → Finished (2): all entries start at 0, and each
iteration either leaves an entry unchanged, moves it from 0 to 1 (a start,
chosen among status-0 entries), or moves it from 1 to 2 (a reap of a
running replicate); no reversal and no skipped state. -/
theorem C2_status_monotone (maxSim : Int) (reps : List Int) (i : StepInput)
    (s : SchedState) (hmax : 0 ≤ maxSim)
    (hreach : Reachable maxSim reps (initState reps) s) :
    (∀ id, getStatus (initState reps).status id = 0) ∧
      ∀ id, StatusStep (getStatus s.status id)
        (getStatus (stepLoop maxSim reps i s).state.status id) := by
  refine ⟨fun id => getStatus_initStatus reps id, ?_⟩
  exact (stepLoop_inv reps i (hreach.inv (initState_inv reps hmax))).2

theorem C2_status_monotone_witness :
    (∀ id, getStatus (initState [0]).status id = 0) ∧
      ∀ id, StatusStep (getStatus (initState [0]).status id)
        (getStatus (stepLoop 1 [0] ⟨false, [], fun _ => 0⟩
          (initState [0])).state.status id) :=
  C2_status_monotone 1 [0] ⟨false, [], fun _ => 0⟩ (initState [0]) (by norm_num)
    (Reachable.refl _)

/-- C3: once the abort flag is set no Pending replicate is ever started:
the iteration that sees the flag exits immediately with the state
untouched, the whole remaining run exits as aborted with the state
untouched, and the abort shutdown path stops checkpointing first and then
calls `abortWorkers` (not `stopWorkers`). -/
theorem C3_abort_path (maxSim : Int) (reps : List Int) (i : StepInput)
    (rest : List StepInput) (s : SchedState) (h : i.abort = true) :
    stepLoop maxSim reps i s = .exitAbort s ∧
      runLoop maxSim reps (i :: rest) s = (.aborted, s) ∧
      shutdownActions true =
        [.stopCheckpointing, .abortWorkers, .closeFile] := by
  have h1 : stepLoop maxSim reps i s = .exitAbort s := by
    rw [stepLoop, if_pos h]
  refine ⟨h1, ?_, rfl⟩
  rw [runLoop, h1]

theorem C3_abort_path_witness :
    stepLoop 1 [0] ⟨true, [], fun _ => 0⟩ (initState [0]) = .exitAbort (initState [0]) ∧
      runLoop 1 [0] [⟨true, [], fun _ => 0⟩] (initState [0]) =
        (.aborted, initState [0]) ∧
      shutdownActions true =
        [.stopCheckpointing, .abortWorkers, .closeFile] :=
  C3_abort_path 1 [0] ⟨true, [], fun _ => 0⟩ [] (initState [0]) rfl

/-- C4: when `getMaxSimultaneousReplicates()` returns 0, `executeSimulation`
throws the fatal configuration exception before any replicate is started,
and `main` turns the escaped exception into exit code −1. -/
theorem C4_zero_max_throws (reps : List Int) (inputs : List StepInput) :
    executeSimulation 0 reps inputs =
        .error "Invalid configuration, no replicates can be processed." ∧
      startedReplicates (executeSimulation 0 reps inputs) = [] ∧
      mainExitCode (executeSimulation 0 reps inputs) = -1 :=
  ⟨rfl, rfl, rfl⟩

/-- C5: the selection scan iterates the replicates vector in order and
breaks at the first entry with status 0: its chosen replicate is exactly
the first Pending id of the list (−1 when there is none) and its
`allFinished` flag is exactly "every entry has status 2"; consequently,
whenever the selection part starts a replicate, the id it appends to the
start log is that first Pending id. -/
theorem C5_first_pending (status : StatusTable) (reps : List Int) :
    findReplicate status reps =
        (((reps.find? fun id => getStatus status id == 0).getD (-1)),
          reps.all fun id => getStatus status id == 2) ∧
      ∀ (maxSim : Int) (s2 s' : SchedState), selectPhase maxSim reps s2 = .cont s' →
        s'.started = s2.started ∨
          s'.started = s2.started ++
            [((reps.find? fun id => getStatus s2.status id == 0).getD (-1))] := by
  refine ⟨findReplicate_spec status reps, ?_⟩
  intro maxSim s2 s' h
  rw [selectPhase] at h
  by_cases hnoop : s2.noop > 1000
  · rw [if_pos hnoop] at h
    by_cases hfin : (findReplicate s2.status reps).2
    · rw [if_pos hfin] at h
      simp at h
    · rw [if_neg hfin] at h
      by_cases hstart : (findReplicate s2.status reps).1 ≥ 0 ∧ s2.assigned < maxSim
      · rw [if_pos hstart] at h
        injection h with h
        right
        rw [← h]
        have hfst : (findReplicate s2.status reps).1 =
            ((reps.find? fun id => getStatus s2.status id == 0).getD (-1)) := by
          rw [findReplicate_spec]
        rw [startReplicateState, hfst]
      · rw [if_neg hstart] at h
        injection h with h
        left
        rw [← h]
  · rw [if_neg hnoop] at h
    injection h with h
    left
    rw [← h]

theorem C5_first_pending_witness :
    (findReplicate [(0, 1)] [0, 1] =
        ((((([0, 1] : List Int).find? fun id => getStatus [(0, 1)] id == 0).getD (-1))),
          ([0, 1] : List Int).all fun id => getStatus [(0, 1)] id == 2)) ∧
      findReplicate [(0, 1)] [0, 1] = (1, false) :=
  ⟨(C5_first_pending [(0, 1)] [0, 1]).1, by decide⟩

/-- C6: the final simulation-parameter map is the file-loaded map
overridden by the well-formed command-line key=value pairs in argument
order: for every key, the last well-formed override of that key (in
argument order) determines its value, and a key with no override keeps its
file-sourced value. -/
theorem C6_override_semantics (m : ParamMap) (ts : List Str) (k : Str) :
    getParam (applyOverrides m ts).1 k =
      match lastOverride ts k with
      | some v => some v
      | none => getParam m k :=
  getParam_applyOverrides_foldl ts m [] k

/-- C7: an override token containing no `'='` is skipped with a warning and
changes nothing, without aborting the run, while the other overrides still
apply: a malformed token leaves the map untouched and only appends itself
to the warning log; in the scenario `["badtoken", "k1=v1"]` the key `k1`
is set, exactly the one warning is recorded, and untouched keys survive. -/
theorem C7_malformed_skipped :
    (∀ (m : ParamMap) (w : List Str) (t : Str), splitAtEq t = none →
        applyOverride (m, w) t = (m, w ++ [t])) ∧
      splitAtEq "badtoken".toList = none ∧
      getParam (applyOverrides [("k0".toList, "v0".toList)]
          ["badtoken".toList, "k1=v1".toList]).1 "k1".toList = some "v1".toList ∧
      (applyOverrides [("k0".toList, "v0".toList)]
          ["badtoken".toList, "k1=v1".toList]).2 = ["badtoken".toList] ∧
      getParam (applyOverrides [("k0".toList, "v0".toList)]
          ["badtoken".toList, "k1=v1".toList]).1 "k0".toList = some "v0".toList := by
  refine ⟨?_, by decide, by decide, by decide, by decide⟩
  intro m w t h
  simp [applyOverride, h]

theorem C7_malformed_skipped_witness :
    applyOverride (([] : ParamMap), ([] : List Str)) "badtoken".toList =
      ([], ["badtoken".toList]) :=
  C7_malformed_skipped.1 [] [] "badtoken".toList (by decide)

/-- C8: the per-replicate exit codes never escalate: two runs whose
environments differ only in the exit codes each runner reports produce the
same control flow and the same scheduler state apart from the completion
log, and the process exit code is 0 exactly when `executeSimulation`
returns normally and −1 when an exception escapes. -/
theorem C8_exit_codes_not_escalated (maxSim : Int) (reps : List Int)
    (inputs : List StepInput) (f g : Int → Int) :
    stripRun (executeSimulation maxSim reps (setExitCodes inputs f)) =
        stripRun (executeSimulation maxSim reps (setExitCodes inputs g)) ∧
      mainExitCode (executeSimulation maxSim reps (setExitCodes inputs f)) =
        mainExitCode (executeSimulation maxSim reps (setExitCodes inputs g)) ∧
      (∀ v, executeSimulation maxSim reps (setExitCodes inputs f) = .ok v →
        mainExitCode (executeSimulation maxSim reps (setExitCodes inputs f)) = 0) ∧
      ∀ e : String,
        mainExitCode (Except.error e : Except String (LoopOutcome × SchedState)) = -1 := by
  have hrun := stripRun_runLoop maxSim reps inputs f g (initState reps) (initState reps) rfl
  refine ⟨?_, ?_, ?_, fun e => rfl⟩
  · rw [executeSimulation, executeSimulation]
    by_cases hz : maxSim = 0
    · rw [if_pos hz, if_pos hz]
    · rw [if_neg hz, if_neg hz]
      simp only [stripRun, Except.map]
      obtain ⟨ho, hs⟩ := hrun
      rw [ho, hs]
  · rw [executeSimulation, executeSimulation]
    by_cases hz : maxSim = 0
    · rw [if_pos hz, if_pos hz]
    · rw [if_neg hz, if_neg hz]
      rfl
  · intro v hv
    rw [hv]
    rfl

theorem C8_exit_codes_not_escalated_witness :
    mainExitCode (executeSimulation 1 [] (setExitCodes [] fun _ => 0)) = 0 :=
  (C8_exit_codes_not_escalated 1 [] [] (fun _ => 0) fun _ => 37).2.2.1
    (.ranOut, initState []) rfl

/-- C9: the all-finished exit happens only in an iteration that reaped
nothing and whose idle counter had already reached 1000, a continuing
iteration that reaps something resets the idle counter to 0, and any run
that exits through all-finished consumed more than `1000 − noop` inputs —
so after the final reap at least 1000 further iterations run before
completion is detected, and never in the reaping iteration itself. -/
theorem C9_completion_delayed :
    (∀ (maxSim : Int) (reps : List Int) (i : StepInput) (s s' : SchedState),
        stepLoop maxSim reps i s = .exitAllFinished s' →
          popNextFinished s.running i.finished = none ∧ 1000 ≤ s.noop) ∧
      (∀ (maxSim : Int) (reps : List Int) (i : StepInput) (s s' : SchedState)
          (p : Int × List Int), stepLoop maxSim reps i s = .cont s' →
          popNextFinished s.running i.finished = some p → s'.noop = 0) ∧
      ∀ (maxSim : Int) (reps : List Int) (inputs : List StepInput) (s : SchedState),
        (runLoop maxSim reps inputs s).1 = .allFinished →
          1000 < inputs.length + s.noop := by
  refine ⟨?_, ?_, ?_⟩
  · intro maxSim reps i s s' h
    obtain ⟨_, h2, _, h4⟩ := stepLoop_exitAllFinished h
    exact ⟨h2, h4⟩
  · intro maxSim reps i s s' p h hp
    exact stepLoop_cont_reap_noop h hp
  · intro maxSim reps inputs s h
    exact runLoop_allFinished_length h

theorem C9_completion_delayed_witness :
    ((popNextFinished ([] : List Int) [] = none ∧ (1000 : Nat) ≤ 1500) ∧
        (SchedState.mk [(7, 2)] 0 0 [] [7] [(7, 0)]).noop = 0) ∧
      (1000 : Nat) < 1 + 1500 :=
  ⟨⟨C9_completion_delayed.1 1 [] ⟨false, [], fun _ => 0⟩
      ⟨[], 0, 1500, [], [], []⟩ ⟨[], 0, 1501, [], [], []⟩ (by decide),
    C9_completion_delayed.2.1 1 [7] ⟨false, [7], fun _ => 0⟩
      ⟨[(7, 1)], 1, 0, [7], [7], []⟩ ⟨[(7, 2)], 0, 0, [], [7], [(7, 0)]⟩ (7, [])
      (by decide) (by decide)⟩,
    C9_completion_delayed.2.2 1 [] [⟨false, [], fun _ => 0⟩]
      ⟨[], 0, 1500, [], [], []⟩ (by decide)⟩

/-- C10: a token is well-formed exactly when it contains an `'='` anywhere,
the split always happens at the first `'='`, `"k="` sets the key to the
empty string, and `"=v"` sets the empty key to `v`. -/
theorem C10_split_at_first_eq :
    (∀ t : Str, splitAtEq t = none ↔ '=' ∉ t) ∧
      (∀ k v : Str, '=' ∉ k → splitAtEq (k ++ '=' :: v) = some (k, v)) ∧
      splitAtEq "k=".toList = some ("k".toList, []) ∧
      splitAtEq "=v".toList = some ([], "v".toList) ∧
      (∀ m : ParamMap,
        getParam (applyOverride (m, []) "k=".toList).1 "k".toList = some []) ∧
      ∀ m : ParamMap,
        getParam (applyOverride (m, []) "=v".toList).1 [] = some "v".toList := by
  refine ⟨?_, ?_, by decide, by decide, ?_, ?_⟩
  · intro t
    induction t with
    | nil => simp [splitAtEq]
    | cons c rest ih =>
      by_cases hc : c = '='
      · subst hc
        simp [splitAtEq]
      · simp only [splitAtEq, if_neg hc, List.mem_cons]
        cases hs : splitAtEq rest with
        | none =>
          have := ih.mp hs
          have hne : ¬ ('=' = c) := fun h => hc h.symm
          simp [hne, this]
        | some p =>
          obtain ⟨k, v⟩ := p
          have : ¬ '=' ∉ rest := fun hnotin => by
            rw [ih.mpr hnotin] at hs
            exact Option.noConfusion hs
          have hin : '=' ∈ rest := not_not.mp this
          simp [hin]
      -- remaining branch handled above
  · intro k v hk
    induction k with
    | nil => simp [splitAtEq]
    | cons c rest ih =>
      have hc : ¬ (c = '=') := by
        intro hc
        exact hk (hc ▸ List.mem_cons_self c rest)
      have hrest : '=' ∉ rest := fun h => hk (List.mem_cons_of_mem c h)
      simp only [List.cons_append, splitAtEq, if_neg hc, List.append_eq, ih hrest]
  · intro m
    have hsplit : splitAtEq ['k', '='] = some (['k'], []) := by decide
    simp [applyOverride, hsplit, getParam_setParam]
  · intro m
    have hsplit : splitAtEq ['=', 'v'] = some ([], ['v']) := by decide
    simp [applyOverride, hsplit, getParam_setParam]

theorem C10_split_at_first_eq_witness :
    splitAtEq ("ab".toList ++ '=' :: "c=d".toList) = some ("ab".toList, "c=d".toList) :=
  C10_split_at_first_eq.2.1 "ab".toList "c=d".toList (by decide)

end MainSA
